import Mathlib

/-!
Verification of `ht04.py`, an asynchronous file sorter: it walks a source
tree, classifies each file by extension into a destination bucket folder,
copies it with bounded concurrency, retry/backoff on failures, an optional
skip policy for locked files, glob exclusion and collision-free naming.

The Python functions are shallowly embedded below, one Lean definition per
Python function, keeping the source names.  Python strings are `String`,
Python `int` is `ℤ` (or `ℕ` where only non-negative values arise), Python
`float` delays are `ℚ` (the program only ever takes `max` with `0.0` and
doubles, which are exact operations), exceptions are an explicit record,
and the opaque collaborators (`aioshutil.copy2`, `pathlib` glob matching,
the filesystem) are parameters of the embedding.
-/

/-- Python `str.replace("\\", "/")`: since both pattern and replacement are
single characters here, this is a character-wise map. -/
def pyReplaceBackslash (s : String) : String :=
  ⟨s.data.map (fun c => if c = '\\' then '/' else c)⟩

/-- Python `needle in hay` on strings, over the underlying character lists:
`true` iff `needle` occurs contiguously in `hay`. -/
def listContainsSub (needle : List Char) : List Char → Bool
  | [] => needle.isEmpty
  | c :: t => needle.isPrefixOf (c :: t) || listContainsSub needle t

/-- Python `needle in hay` for strings. -/
def strContainsSub (hay needle : String) : Bool :=
  listContainsSub needle.data hay.data

/-- Python `str.lower()`, modelled as ASCII lowering char by char (this
agrees with Python on every ASCII string). -/
def pyLower (s : String) : String :=
  ⟨s.data.map Char.toLower⟩

/-- Python `str.lstrip(".")`: drop every leading `'.'` character. -/
def lstripDots (s : String) : String :=
  ⟨s.data.dropWhile (fun c => c = '.')⟩

/-- Decimal digit characters of `n`, most significant first; the first
argument is fuel (structural recursion so that the kernel can evaluate it).
`natReprAux fuel n` is correct whenever `n ≤ fuel`. -/
def natReprAux : Nat → Nat → List Char
  | 0, _ => []
  | fuel + 1, n =>
    if n = 0 then [] else natReprAux fuel (n / 10) ++ [Nat.digitChar (n % 10)]

/-- Decimal rendering of a non-negative integer, as Python's `str(i)` /
f-string interpolation renders the counter in `f"{stem} ({i}){suffix}"`. -/
def natRepr (n : Nat) : String :=
  if n = 0 then "0" else ⟨natReprAux n n⟩

/-- CPython `PurePath.suffix` of a filename (final path component):
with `i` the index of the last `'.'`, the suffix is `name[i:]` when
`0 < i < len(name) - 1`, and empty otherwise.  In particular a leading-dot
name such as `".gitignore"` and a trailing-dot name have no suffix. -/
def pySuffix (name : String) : String :=
  let cs := name.data
  match cs.reverse.findIdx? (fun c => c = '.') with
  | none => ""
  | some k =>
    let i := cs.length - 1 - k
    if 0 < i ∧ i < cs.length - 1 then ⟨cs.drop i⟩ else ""

/-- CPython `PurePath.stem` of a filename: `name[:i]` when the last `'.'`
is at index `i` with `0 < i < len(name) - 1`, and the whole name otherwise. -/
def pyStem (name : String) : String :=
  let cs := name.data
  match cs.reverse.findIdx? (fun c => c = '.') with
  | none => name
  | some k =>
    let i := cs.length - 1 - k
    if 0 < i ∧ i < cs.length - 1 then ⟨cs.take i⟩ else name

/-- `ht04.ext_folder_name`: `ext = path.suffix.lower().lstrip(".")`, and the
bucket is `ext` when non-empty, else the sentinel `"no_extension"`.
`PurePath.suffix` only depends on the final path component, so the embedding
takes the filename.  (`str.lower` is modelled by ASCII lowering, which
agrees with Python on the ASCII filenames of all claims.) -/
def ext_folder_name (name : String) : String :=
  let ext := lstripDots (pyLower (pySuffix name))
  if ext = "" then "no_extension" else ext

/-- A raised Python exception, as far as `ht04.py` inspects one: whether it
is a `PermissionError`, and its message `str(exc)`. -/
structure PyExc where
  isPermissionError : Bool
  msg : String
deriving DecidableEq

/-- `ht04._is_locked_error`: the exception is a `PermissionError` and its
message contains `"WinError 32"`, or lower-cased contains
`"process cannot access"`. -/
def _is_locked_error (exc : PyExc) : Bool :=
  exc.isPermissionError &&
    (strContainsSub exc.msg "WinError 32" ||
      strContainsSub (pyLower exc.msg) "process cannot access")

/-- Result value of `copy_with_retries`: Python `tuple[bool, str | None]`
(`(True, None)` success, `(False, "locked")` skipped, `(False, "error")`
failed). -/
abbrev CopyResult := Bool × Option String

/-- Full observable behaviour of one `copy_with_retries` call: its returned
value, the number of copy attempts performed (calls of `aioshutil.copy2`),
and the list of `asyncio.sleep` durations in order. -/
structure RetryRun where
  result : CopyResult
  attempts : Nat
  waits : List ℚ
deriving DecidableEq

/-- The `while True` loop of `ht04.copy_with_retries`.  `copyAt n` is the
outcome of the `n`-th call (0-based) of the opaque copy primitive
`aioshutil.copy2` (`none` = success, `some exc` = raises `exc`); `attempt`
is the Python `attempt` counter (number of failures so far) and `backoff`
the current delay.  Each loop iteration re-raises at the next index. -/
def cwrLoop (copyAt : Nat → Option PyExc) (retries : ℤ) (skip_locked : Bool)
    (attempt : Nat) (backoff : ℚ) : RetryRun :=
  match copyAt attempt with
  | none => ⟨(true, none), attempt + 1, []⟩
  | some exc =>
    if _is_locked_error exc && skip_locked then
      ⟨(false, some "locked"), attempt + 1, []⟩
    else if h : retries < (attempt : ℤ) + 1 then
      ⟨(false, some "error"), attempt + 1, []⟩
    else
      let rest := cwrLoop copyAt retries skip_locked (attempt + 1) (backoff * 2)
      ⟨rest.result, rest.attempts, backoff :: rest.waits⟩
termination_by (retries + 1 - attempt).toNat
decreasing_by omega

/-- `ht04.copy_with_retries`: `attempt = 0`, `backoff = max(0.0, delay)`,
then the retry loop. -/
def copy_with_retries (copyAt : Nat → Option PyExc) (retries : ℤ)
    (delay : ℚ) (skip_locked : Bool) : RetryRun :=
  cwrLoop copyAt retries skip_locked 0 (max 0 delay)

/-- The doubling backoff schedule: `geomList b n = [b, 2b, 4b, …]` of
length `n`, mirroring `backoff *= 2` after each sleep. -/
def geomList : ℚ → Nat → List ℚ
  | _, 0 => []
  | b, n + 1 => b :: geomList (b * 2) n

theorem geomList_length (b : ℚ) (n : Nat) : (geomList b n).length = n := by
  induction n generalizing b with
  | zero => rfl
  | succ n ih => simp [geomList, ih]

theorem geomList_getD (n : Nat) : ∀ (b : ℚ) (k : Nat), k + 1 < n →
    (geomList b n).getD (k + 1) 0 = 2 * (geomList b n).getD k 0 := by
  induction n with
  | zero => intro b k h; omega
  | succ n ih =>
    intro b k h
    match k with
    | 0 =>
      have hn : 1 ≤ n := by omega
      match n, hn with
      | n + 1, _ => simp [geomList]; ring
    | k + 1 =>
      have := ih (b * 2) k (by omega)
      simpa [geomList] using this

theorem geomList_zero_mem (n : Nat) : ∀ q ∈ geomList 0 n, q = 0 := by
  induction n with
  | zero => intro q hq; simp [geomList] at hq
  | succ n ih =>
    intro q hq
    simp only [geomList, List.mem_cons, zero_mul] at hq
    rcases hq with h | h
    · exact h
    · exact ih q h

/-- The waits of any `cwrLoop` run form a doubling schedule starting at the
entry backoff. -/
theorem cwrLoop_waits (copyAt : Nat → Option PyExc) (retries : ℤ)
    (sk : Bool) (attempt : Nat) (backoff : ℚ) :
    ∃ n, (cwrLoop copyAt retries sk attempt backoff).waits = geomList backoff n := by
  induction attempt, backoff using cwrLoop.induct copyAt retries sk with
  | case1 a b he => exact ⟨0, by rw [cwrLoop, he]; simp [geomList]⟩
  | case2 a b e he hl => exact ⟨0, by rw [cwrLoop, he]; simp [hl, geomList]⟩
  | case3 a b e he hl hr => exact ⟨0, by rw [cwrLoop, he]; simp [hl, hr, geomList]⟩
  | case4 a b e he hl hr ih =>
    obtain ⟨n, hn⟩ := ih
    exact ⟨n + 1, by rw [cwrLoop, he]; simp [hl, hr, geomList, hn]⟩

/-- If every attempt from `attempt` on fails and is never skippable
(non-locked, or the skip flag unset), the loop runs to exhaustion:
`R.toNat + 1` total attempts, result `(False, "error")`, sleeping the full
doubling schedule. -/
theorem cwrLoop_all_fail (copyAt : Nat → Option PyExc) (R : ℤ) (sk : Bool)
    (H : ∀ n, ∃ e, copyAt n = some e ∧
      (_is_locked_error e = false ∨ sk = false)) :
    ∀ (attempt : Nat) (backoff : ℚ), (attempt : ℤ) ≤ R →
      cwrLoop copyAt R sk attempt backoff =
        ⟨(false, some "error"), R.toNat + 1, geomList backoff (R.toNat - attempt)⟩ := by
  intro a b
  induction a, b using cwrLoop.induct copyAt R sk with
  | case1 a b he =>
    intro _
    obtain ⟨e, he', _⟩ := H a
    rw [he] at he'
    exact absurd he' (by simp)
  | case2 a b e he hl =>
    intro _
    obtain ⟨e', he', hd⟩ := H a
    rw [he] at he'
    injection he' with h
    subst h
    rcases hd with h | h <;> simp [h] at hl
  | case3 a b e he hl hr =>
    intro ha
    have h1 : R.toNat = a := by omega
    rw [cwrLoop, he]
    simp [hl, hr, h1, geomList]
  | case4 a b e he hl hr ih =>
    intro ha
    have ha' : ((a + 1 : Nat) : ℤ) ≤ R := by push_cast; omega
    have h1 : R.toNat - a = (R.toNat - (a + 1)) + 1 := by omega
    rw [cwrLoop, he]
    simp only [hl, hr, Bool.false_eq_true, if_false, dite_false]
    rw [ih ha']
    simp [h1, geomList]

/-- Every value `copy_with_retries` can return is one of the three
documented outcomes. -/
theorem cwrLoop_result_cases (copyAt : Nat → Option PyExc) (R : ℤ)
    (sk : Bool) : ∀ (attempt : Nat) (backoff : ℚ),
    (cwrLoop copyAt R sk attempt backoff).result = (true, none) ∨
    (cwrLoop copyAt R sk attempt backoff).result = (false, some "locked") ∨
    (cwrLoop copyAt R sk attempt backoff).result = (false, some "error") := by
  intro a b
  induction a, b using cwrLoop.induct copyAt R sk with
  | case1 a b he => left; rw [cwrLoop, he]
  | case2 a b e he hl => right; left; rw [cwrLoop, he]; simp [hl]
  | case3 a b e he hl hr => right; right; rw [cwrLoop, he]; simp [hl, hr]
  | case4 a b e he hl hr ih =>
    rw [cwrLoop, he]
    simpa [hl, hr] using ih

theorem natReprAux_eq_digits (fuel : Nat) : ∀ n : Nat, n ≤ fuel →
    natReprAux fuel n = ((Nat.digits 10 n).map Nat.digitChar).reverse := by
  induction fuel with
  | zero =>
    intro n hn
    have h0 : n = 0 := by omega
    subst h0
    simp [natReprAux]
  | succ fuel ih =>
    intro n hn
    by_cases h0 : n = 0
    · subst h0; simp [natReprAux]
    · have hpos : 0 < n := Nat.pos_of_ne_zero h0
      have hdiv : n / 10 < n := Nat.div_lt_self hpos (by omega)
      have hd : Nat.digits 10 n = n % 10 :: Nat.digits 10 (n / 10) :=
        Nat.digits_def' (by omega) hpos
      rw [natReprAux]
      simp only [h0, if_false]
      rw [ih (n / 10) (by omega), hd]
      simp

theorem digitChar_inj_lt10 :
    ∀ d1 < 10, ∀ d2 < 10, Nat.digitChar d1 = Nat.digitChar d2 → d1 = d2 := by
  decide

theorem map_digitChar_inj : ∀ (L1 L2 : List Nat), (∀ d ∈ L1, d < 10) →
    (∀ d ∈ L2, d < 10) → L1.map Nat.digitChar = L2.map Nat.digitChar →
    L1 = L2 := by
  intro L1
  induction L1 with
  | nil =>
    intro L2 _ _ h
    cases L2 with
    | nil => rfl
    | cons b t2 => simp at h
  | cons a t ih =>
    intro L2 h1 h2 h
    cases L2 with
    | nil => simp at h
    | cons b t2 =>
      simp only [List.map_cons, List.cons.injEq] at h
      obtain ⟨hab, ht⟩ := h
      have ha := h1 a (by simp)
      have hb := h2 b (by simp)
      have hd := digitChar_inj_lt10 a ha b hb hab
      subst hd
      rw [ih t2 (fun d hd => h1 d (by simp [hd])) (fun d hd => h2 d (by simp [hd])) ht]

theorem natRepr_injective : Function.Injective natRepr := by
  intro m n h
  have hdata := congrArg String.data h
  by_cases hm : m = 0 <;> by_cases hn : n = 0
  · omega
  · exfalso
    simp only [natRepr, hm, hn, if_true, if_false] at hdata
    rw [natReprAux_eq_digits n n le_rfl] at hdata
    have : Nat.digits 10 n = [] ∨ ∃ d, Nat.digits 10 n = [d] ∧ Nat.digitChar d = '0' := by
      rcases hL : Nat.digits 10 n with _ | ⟨d, t⟩
      · exact Or.inl rfl
      · rw [hL] at hdata
        rcases ht : t with _ | ⟨d2, t2⟩
        · subst ht
          refine Or.inr ⟨d, rfl, ?_⟩
          simpa using hdata.symm
        · rw [ht] at hdata
          have hlen := congrArg List.length hdata
          simp at hlen
    rcases this with hL | ⟨d, hL, hc⟩
    · exact hn (by simpa using Nat.digits_inj_iff.mp (hL.trans (Nat.digits_zero 10).symm))
    · have hd10 : d < 10 := Nat.digits_lt_base (by omega) (by rw [hL]; simp)
      have hd0 : d = 0 := by
        have : ∀ d < 10, Nat.digitChar d = '0' → d = 0 := by decide
        exact this d hd10 hc
      subst hd0
      have := Nat.ofDigits_digits 10 n
      rw [hL] at this
      simp [Nat.ofDigits] at this
      exact hn this.symm
  · exfalso
    simp only [natRepr, hm, hn, if_true, if_false] at hdata
    rw [natReprAux_eq_digits m m le_rfl] at hdata
    have : Nat.digits 10 m = [] ∨ ∃ d, Nat.digits 10 m = [d] ∧ Nat.digitChar d = '0' := by
      rcases hL : Nat.digits 10 m with _ | ⟨d, t⟩
      · exact Or.inl rfl
      · rw [hL] at hdata
        rcases ht : t with _ | ⟨d2, t2⟩
        · subst ht
          refine Or.inr ⟨d, rfl, ?_⟩
          simpa using hdata
        · rw [ht] at hdata
          have hlen := congrArg List.length hdata
          simp at hlen
    rcases this with hL | ⟨d, hL, hc⟩
    · exact hm (by simpa using Nat.digits_inj_iff.mp (hL.trans (Nat.digits_zero 10).symm))
    · have hd10 : d < 10 := Nat.digits_lt_base (by omega) (by rw [hL]; simp)
      have hd0 : d = 0 := by
        have : ∀ d < 10, Nat.digitChar d = '0' → d = 0 := by decide
        exact this d hd10 hc
      subst hd0
      have := Nat.ofDigits_digits 10 m
      rw [hL] at this
      simp [Nat.ofDigits] at this
      exact hm this.symm
  · simp only [natRepr, hm, hn, if_false] at hdata
    rw [natReprAux_eq_digits m m le_rfl, natReprAux_eq_digits n n le_rfl] at hdata
    have hrev := List.reverse_injective hdata
    have hdig := map_digitChar_inj _ _
      (fun d hd => Nat.digits_lt_base (by omega) hd)
      (fun d hd => Nat.digits_lt_base (by omega) hd) hrev
    exact Nat.digits_inj_iff.mp hdig

/-- The candidate name probed at index `i` inside the destination bucket:
Python `f"{stem} ({i}){suffix}"`. -/
def probeName (stem sfx : String) (i : Nat) : String :=
  stem ++ " (" ++ natRepr i ++ ")" ++ sfx

theorem probeName_injective (stem sfx : String) :
    Function.Injective (probeName stem sfx) := by
  intro i j h
  have hdata := congrArg String.data h
  have hshape : ∀ x : Nat, (probeName stem sfx x).data =
      (stem.data ++ " (".data) ++ ((natRepr x).data ++ (")".data ++ sfx.data)) := by
    intro x
    show (stem ++ " (" ++ natRepr x ++ ")" ++ sfx).data = _
    simp [String.data_append, List.append_assoc]
  rw [hshape i, hshape j] at hdata
  have h1 := List.append_cancel_left hdata
  have h2 := List.append_cancel_right h1
  exact natRepr_injective (String.ext h2)

/-- Among any `existing.length + 1` consecutive probe indices there is one
whose name is not in `existing` (pigeonhole via injectivity). -/
theorem exists_fresh_probe (existing : List String) (stem sfx : String)
    (i : Nat) : ∃ k, k ≤ existing.length ∧
      probeName stem sfx (i + k) ∉ existing := by
  by_contra hcon
  push_neg at hcon
  set L := existing.length with hL
  set l : List String :=
    (List.range (L + 1)).map (fun k => probeName stem sfx (i + k)) with hl
  have hinj : Function.Injective (fun k => probeName stem sfx (i + k)) := by
    intro a b hab
    have := probeName_injective stem sfx hab
    omega
  have hnodup : l.Nodup := List.Nodup.map hinj (List.nodup_range (L + 1))
  have hsub : ∀ x ∈ l, x ∈ existing := by
    intro x hx
    rw [hl] at hx
    simp only [List.mem_map, List.mem_range] at hx
    obtain ⟨k, hk, rfl⟩ := hx
    exact hcon k (by omega)
  have hcard1 : l.toFinset.card = L + 1 := by
    rw [List.toFinset_card_of_nodup hnodup, hl]
    simp
  have hcard2 : l.toFinset ⊆ existing.toFinset := by
    intro x hx
    rw [List.mem_toFinset] at hx ⊢
    exact hsub x hx
  have := Finset.card_le_card hcard2
  have := List.toFinset_card_le (l := existing)
  omega

/-- The `while True` probing loop of `ht04._unique_target_path`, with fuel
(`none` = fuel exhausted; the pigeonhole bound shows fuel
`existing.length + 1` always suffices). -/
def uniqueLoop (existing : List String) (stem sfx : String) :
    Nat → Nat → Option String
  | 0, _ => none
  | fuel + 1, i =>
    let candidate := probeName stem sfx i
    if candidate ∈ existing then uniqueLoop existing stem sfx fuel (i + 1)
    else some candidate

/-- `ht04._unique_target_path`, with the destination directory state
abstracted as the (finite) list of names existing in `dst_dir`: the result
is the chosen filename within `dst_dir` (`candidate.exists()` becomes
membership in `existing`). -/
def _unique_target_path (existing : List String) (filename : String) :
    Option String :=
  if filename ∈ existing then
    uniqueLoop existing (pyStem filename) (pySuffix filename)
      (existing.length + 1) 1
  else some filename

theorem uniqueLoop_spec (existing : List String) (stem sfx : String) :
    ∀ (fuel i : Nat),
    (∃ k, k < fuel ∧ probeName stem sfx (i + k) ∉ existing) →
    ∃ k, k < fuel ∧
      uniqueLoop existing stem sfx fuel i = some (probeName stem sfx (i + k)) ∧
      probeName stem sfx (i + k) ∉ existing ∧
      ∀ j, i ≤ j → j < i + k → probeName stem sfx j ∈ existing := by
  intro fuel
  induction fuel with
  | zero =>
    rintro i ⟨k, hk, _⟩
    omega
  | succ fuel ih =>
    rintro i ⟨k0, hk0, hfresh⟩
    by_cases hc : probeName stem sfx i ∈ existing
    · have hk0pos : 0 < k0 := by
        rcases Nat.eq_zero_or_pos k0 with h | h
        · subst h; simp at hfresh; exact absurd hc hfresh
        · exact h
      have hnext : ∃ k, k < fuel ∧ probeName stem sfx ((i + 1) + k) ∉ existing := by
        refine ⟨k0 - 1, by omega, ?_⟩
        have he : (i + 1) + (k0 - 1) = i + k0 := by omega
        rw [he]
        exact hfresh
      obtain ⟨k, hk, hl1, hl2, hl3⟩ := ih (i + 1) hnext
      have he : i + (k + 1) = (i + 1) + k := by omega
      refine ⟨k + 1, by omega, ?_, ?_, ?_⟩
      · rw [uniqueLoop]
        simp only [hc, if_true]
        rw [he]
        exact hl1
      · rw [he]; exact hl2
      · intro j hj1 hj2
        rcases Nat.eq_or_lt_of_le hj1 with h | h
        · subst h; exact hc
        · exact hl3 j h (by omega)
    · refine ⟨0, by omega, ?_, by simpa using hc, by intro j h1 h2; omega⟩
      rw [uniqueLoop]
      simp [hc]

/-- One filesystem object discovered by `root.rglob("*")`: its path
relative to the source root as the OS renders it (`str(p.relative_to(root))`)
and whether it is a regular file. -/
structure FsEntry where
  rel : String
  isFile : Bool
deriving DecidableEq

/-- `ht04.iter_files_recursive`, with the traversal result of `rglob`
abstracted as the entry list and `PurePath.match` as the opaque `pathMatch`
collaborator: keep the regular files whose normalized relative path matches
no exclusion pattern.  (The Python `if excludes:` guard and the
first-match `break` are both absorbed by `List.any`, which is `false` on
the empty pattern list and short-circuits on the first match.) -/
def iter_files_recursive (pathMatch : String → String → Bool)
    (entries : List FsEntry) (excludes : List String) : List FsEntry :=
  entries.filter (fun p =>
    p.isFile &&
      !(excludes.any (fun pat => pathMatch (pyReplaceBackslash p.rel) pat)))

/-- The per-file environment a `copy_file` task runs against: whether
`_mkdir_async` raises, whether `_unique_target_path` raises (e.g. an OS
error from `.exists()`), and the behaviour of the copy primitive. -/
structure FileEnv where
  mkdirExc : Option PyExc
  nameExc : Option PyExc
  copyAt : Nat → Option PyExc

/-- `ht04.copy_file`: mkdir the bucket, resolve the target name, then the
retry-wrapped copy under the semaphore; any exception escaping those steps
is caught by the surrounding `try`/`except` and recorded as
`(False, "error")`.  (The semaphore changes only scheduling, not the
returned value; it is modelled separately by `SchedStep`.) -/
def copy_file (env : FileEnv) (retries : ℤ) (delay : ℚ)
    (skip_locked : Bool) : CopyResult :=
  match env.mkdirExc with
  | some _ => (false, some "error")
  | none =>
    match env.nameExc with
    | some _ => (false, some "error")
    | none => (copy_with_retries env.copyAt retries delay skip_locked).result

/-- What a completed `read_folder` run did: whether the destination root
was created, the per-file results in traversal order, and the three
aggregated counts of the final summary. -/
structure RunResult where
  madeOutRoot : Bool
  results : List CopyResult
  ok : Nat
  locked : Nat
  failed : Nat
deriving DecidableEq

/-- The preflight error message of `read_folder`
(`FileNotFoundError(f"Вихідна папка не існує або не є директорією: {src_root}")`). -/
def preflightMsg (srcRoot : String) : String :=
  "Вихідна папка не існує або не є директорією: " ++ srcRoot

def isOkResult (r : CopyResult) : Bool := r.1
def isLockedResult (r : CopyResult) : Bool := !r.1 && r.2 == some "locked"
def isFailedResult (r : CopyResult) : Bool := !r.1 && r.2 == some "error"

/-- `ht04.read_folder`: preflight check on the source root, create the
destination root, discover files through the exclusion filter, run one
`copy_file` task per file (`asyncio.gather` keeps one result per task, in
task order) and aggregate the three counts.  The filesystem and scheduler
are abstracted: `srcExists`/`srcIsDir` are the preflight probes, `entries`
the traversal, `envOf` each file's copy environment.  (The `if not files:
return` early exit returns before `gather`; its observable state equals the
general path on an empty file list: no results and zero counts.) -/
def read_folder (pathMatch : String → String → Bool) (srcRoot : String)
    (srcExists srcIsDir : Bool) (entries : List FsEntry)
    (envOf : FsEntry → FileEnv) (retries : ℤ) (delay : ℚ)
    (skip_locked : Bool) (excludes : List String) :
    Except String RunResult :=
  if !srcExists || !srcIsDir then
    Except.error (preflightMsg srcRoot)
  else
    let files := iter_files_recursive pathMatch entries excludes
    let results := files.map (fun p => copy_file (envOf p) retries delay skip_locked)
    Except.ok
      { madeOutRoot := true
        results := results
        ok := results.countP isOkResult
        locked := results.countP isLockedResult
        failed := results.countP isFailedResult }

/-- Each of the three summary predicates holds for exactly one of the three
producible outcome values, so on any list of such outcomes the counts
partition the list. -/
theorem counts_partition (l : List CopyResult)
    (H : ∀ r ∈ l, r = (true, none) ∨ r = (false, some "locked") ∨
      r = (false, some "error")) :
    l.countP isOkResult + l.countP isLockedResult + l.countP isFailedResult
      = l.length := by
  induction l with
  | nil => simp
  | cons r t ih =>
    have hr := H r (by simp)
    have ht := ih (fun x hx => H x (by simp [hx]))
    rcases hr with h | h | h <;>
      subst h <;>
      simp [List.countP_cons, isOkResult, isLockedResult, isFailedResult] <;>
      omega

/-- Phase of one `copy_file` task in `read_folder`'s gather: `prep` is the
directory-creation/naming work before `async with sem`, `waitingSem` is
suspension on `sem.acquire`, `copying` is the retry-wrapped copy executed
while the permit is held, `done` is after the permit release. -/
inductive TaskPhase
  | prep
  | waitingSem
  | copying
  | done
deriving DecidableEq

/-- Interleaving state of a run: the free permits of
`asyncio.Semaphore(max_workers)` and the phase of each spawned task. -/
structure SchedState where
  permits : Nat
  phases : List TaskPhase
deriving DecidableEq

/-- The number of tasks currently inside their copy phase. -/
def countCopying (s : SchedState) : Nat :=
  s.phases.countP (fun ph => ph == TaskPhase.copying)

/-- Initial state of `read_folder`'s scheduler: `M` spawned tasks all before
their semaphore, and `max_workers` free permits. -/
def schedInit (maxWorkers M : Nat) : SchedState :=
  ⟨maxWorkers, List.replicate M TaskPhase.prep⟩

/-- One scheduler step of the event loop, as `copy_file` uses the
semaphore: finishing the mkdir/naming prep needs no permit; entering the
copy phase consumes one free permit (`sem.acquire` only proceeds when one
is free); leaving the copy phase releases it (`async with sem` exit), on
success, skip and failure alike. -/
inductive SchedStep : SchedState → SchedState → Prop
  | finishPrep (p : Nat) (phs : List TaskPhase) (i : Nat)
      (h : phs.get? i = some TaskPhase.prep) :
      SchedStep ⟨p, phs⟩ ⟨p, phs.set i TaskPhase.waitingSem⟩
  | acquire (p : Nat) (phs : List TaskPhase) (i : Nat)
      (h : phs.get? i = some TaskPhase.waitingSem) :
      SchedStep ⟨p + 1, phs⟩ ⟨p, phs.set i TaskPhase.copying⟩
  | release (p : Nat) (phs : List TaskPhase) (i : Nat)
      (h : phs.get? i = some TaskPhase.copying) :
      SchedStep ⟨p, phs⟩ ⟨p + 1, phs.set i TaskPhase.done⟩

/-- States the event loop can reach from the start of a run. -/
def SchedReachable (maxWorkers M : Nat) (s : SchedState) : Prop :=
  Relation.ReflTransGen SchedStep (schedInit maxWorkers M) s

theorem countP_set_eq (p : TaskPhase → Bool) :
    ∀ (l : List TaskPhase) (i : Nat) (a b : TaskPhase),
    l.get? i = some b →
    (l.set i a).countP p + (if p b then 1 else 0)
      = l.countP p + (if p a then 1 else 0) := by
  intro l
  induction l with
  | nil => intro i a b h; simp at h
  | cons x t ih =>
    intro i a b h
    match i with
    | 0 =>
      simp only [List.get?] at h
      injection h with h
      subst h
      simp [List.countP_cons]
      omega
    | i + 1 =>
      simp only [List.get?] at h
      have := ih i a b h
      simp [List.countP_cons]
      omega

/-- The semaphore invariant: free permits plus held permits (tasks in their
copy phase) is constant, equal to `max_workers`. -/
theorem sched_invariant (maxWorkers M : Nat) (s : SchedState)
    (h : SchedReachable maxWorkers M s) :
    s.permits + countCopying s = maxWorkers := by
  induction h with
  | refl =>
    have hz : ∀ x ∈ List.replicate M TaskPhase.prep,
        ¬((x == TaskPhase.copying) = true) := by
      intro x hx
      rw [List.eq_of_mem_replicate hx]
      decide
    simp [schedInit, countCopying, List.countP_eq_zero.mpr hz]
  | tail _ hstep ih =>
    cases hstep with
    | finishPrep p phs i h =>
      have := countP_set_eq (fun ph => ph == TaskPhase.copying) phs i
        TaskPhase.waitingSem TaskPhase.prep h
      simp [countCopying] at ih this ⊢
      omega
    | acquire p phs i h =>
      have := countP_set_eq (fun ph => ph == TaskPhase.copying) phs i
        TaskPhase.copying TaskPhase.waitingSem h
      simp [countCopying] at ih this ⊢
      omega
    | release p phs i h =>
      have := countP_set_eq (fun ph => ph == TaskPhase.copying) phs i
        TaskPhase.done TaskPhase.copying h
      simp [countCopying] at ih this ⊢
      omega

theorem toLower_ne_dot (c : Char) (hc : c ≠ '.') : Char.toLower c ≠ '.' := by
  intro h
  rw [Char.toLower] at h
  by_cases hr : c.toNat ≥ 65 ∧ c.toNat ≤ 90
  · rw [if_pos hr] at h
    rcases hr with ⟨h1, h2⟩
    generalize hgen : c.toNat + 32 = m at h
    have hl : 97 ≤ m := by omega
    have hu : m ≤ 122 := by omega
    interval_cases m <;> exact absurd h (by decide)
  · rw [if_neg hr] at h
    exact hc h

/-- `pySuffix` on a name decomposed at its last dot. -/
theorem pySuffix_decomp (pre post : List Char) (hnd : '.' ∉ post) :
    pySuffix ⟨pre ++ '.' :: post⟩ =
      if pre ≠ [] ∧ post ≠ [] then ⟨'.' :: post⟩ else "" := by
  have hfind : (pre ++ '.' :: post).reverse.findIdx?
      (fun c => decide (c = '.')) = some post.length := by
    rw [List.reverse_append, List.reverse_cons, List.append_assoc,
      List.findIdx?_append]
    have h1 : post.reverse.findIdx? (fun c => decide (c = '.')) = none := by
      rw [List.findIdx?_eq_none_iff]
      intro x hx
      simp only [decide_eq_false_iff_not]
      intro hdot
      subst hdot
      exact hnd (List.mem_reverse.mp hx)
    rw [h1]
    simp
  rw [pySuffix]
  simp only [hfind]
  have hlen : (pre ++ '.' :: post).length = pre.length + post.length + 1 := by
    simp; omega
  have hi : (pre ++ '.' :: post).length - 1 - post.length = pre.length := by
    omega
  rw [hlen] at hi ⊢
  rw [hi]
  have hdrop : (pre ++ '.' :: post).drop pre.length = '.' :: post :=
    List.drop_left pre ('.' :: post)
  by_cases hp : pre ≠ [] ∧ post ≠ []
  · have hc : 0 < pre.length ∧ pre.length < pre.length + post.length + 1 - 1 := by
      constructor
      · exact List.length_pos.mpr hp.1
      · have := List.length_pos.mpr hp.2
        omega
    rw [if_pos hc, if_pos hp, hdrop]
  · have hc : ¬(0 < pre.length ∧ pre.length < pre.length + post.length + 1 - 1) := by
      intro hcon
      refine hp ⟨?_, ?_⟩
      · exact List.length_pos.mp hcon.1
      · have : 0 < post.length := by omega
        exact List.length_pos.mp this
    rw [if_neg hc, if_neg hp]

/-- Positive branch of the (amended) classifier spec: a name whose last
dot is internal maps to the lower-cased text after that dot. -/
theorem ext_folder_name_decomp (pre post : List Char) (hnd : '.' ∉ post)
    (hpre : pre ≠ []) (hpost : post ≠ []) :
    ext_folder_name ⟨pre ++ '.' :: post⟩ = pyLower ⟨post⟩ := by
  simp only [ext_folder_name]
  rw [pySuffix_decomp pre post hnd]
  rw [if_pos (show pre ≠ [] ∧ post ≠ [] from ⟨hpre, hpost⟩)]
  rcases post with _ | ⟨c, rest⟩
  · exact absurd rfl hpost
  · have hc : c ≠ '.' := by
      intro h
      subst h
      exact hnd (by simp)
    have hlow : Char.toLower c ≠ '.' := toLower_ne_dot c hc
    have hdot : Char.toLower '.' = '.' := by decide
    have hstrip : lstripDots (pyLower ⟨'.' :: c :: rest⟩) =
        ⟨Char.toLower c :: rest.map Char.toLower⟩ := by
      simp only [pyLower, lstripDots, List.map_cons, hdot]
      congr 1
      rw [List.dropWhile_cons_of_pos (by simp)]
      rw [List.dropWhile_cons_of_neg (by simp [hlow])]
    rw [hstrip]
    have hne : (String.mk (Char.toLower c :: rest.map Char.toLower)) ≠ "" := by
      intro h
      have := congrArg String.data h
      simp at this
    rw [if_neg hne]
    rfl

/-- Negative branch: a name with no internal last dot maps to the
sentinel. -/
theorem ext_folder_name_sentinel (name : String)
    (h : ¬ ∃ pre post, name.data = pre ++ '.' :: post ∧ '.' ∉ post ∧
      pre ≠ [] ∧ post ≠ []) :
    ext_folder_name name = "no_extension" := by
  suffices hsuf : pySuffix name = "" by
    rw [ext_folder_name, hsuf]
    rfl
  rw [pySuffix]
  cases hf : name.data.reverse.findIdx? (fun c => decide (c = '.')) with
  | none => rfl
  | some k =>
    rw [List.findIdx?_eq_some_iff_getElem] at hf
    obtain ⟨hk, hp, hmin⟩ := hf
    have hklen : k < name.data.length := by simpa using hk
    show (if 0 < name.data.length - 1 - k ∧
            name.data.length - 1 - k < name.data.length - 1
          then (⟨name.data.drop (name.data.length - 1 - k)⟩ : String)
          else "") = ""
    rw [if_neg]
    intro hcond
    obtain ⟨hpos, hlt⟩ := hcond
    apply h
    have hA : name.data[name.data.length - 1 - k]? = some '.' := by
      have h1 : name.data.reverse[k]? = some '.' := by
        rw [List.getElem?_eq_getElem hk]
        simp only [decide_eq_true_eq] at hp
        rw [hp]
      rw [List.getElem?_reverse hklen] at h1
      exact h1
    have hB : ∀ j, name.data.length - 1 - k < j → j < name.data.length →
        ¬(name.data[j]? = some '.') := by
      intro j hij hj hdotj
      have hm : name.data.length - 1 - j < k := by omega
      have hrev : name.data.reverse[name.data.length - 1 - j]? = name.data[j]? := by
        rw [List.getElem?_reverse (by omega : name.data.length - 1 - j < name.data.length)]
        congr 1
        omega
      rw [hdotj] at hrev
      apply hmin (name.data.length - 1 - j) hm
      simp only [decide_eq_true_eq]
      rw [List.getElem_reverse]
      have hjj : name.data.length - 1 - (name.data.length - 1 - j) = j := by omega
      simp only [hjj]
      rw [List.getElem?_eq_some_iff] at hdotj
      obtain ⟨hjl, hje⟩ := hdotj
      exact hje
    rw [List.getElem?_eq_some_iff] at hA
    obtain ⟨hilen, hieq⟩ := hA
    refine ⟨name.data.take (name.data.length - 1 - k),
      name.data.drop (name.data.length - 1 - k + 1), ?_, ?_, ?_, ?_⟩
    · conv_lhs => rw [← List.take_append_drop (name.data.length - 1 - k) name.data]
      have hd := List.drop_eq_getElem_cons hilen
      rw [hieq] at hd
      rw [hd]
    · intro hmem
      rw [List.mem_iff_getElem?] at hmem
      obtain ⟨j, hjget⟩ := hmem
      rw [List.getElem?_drop] at hjget
      have hjlen : name.data.length - 1 - k + 1 + j < name.data.length := by
        by_contra hcon
        rw [List.getElem?_eq_none (by omega)] at hjget
        exact Option.noConfusion hjget
      exact hB (name.data.length - 1 - k + 1 + j) (by omega) hjlen hjget
    · intro hemp
      rw [List.take_eq_nil_iff] at hemp
      rcases hemp with h0 | h0
      · omega
      · rw [h0] at hilen
        simp at hilen
    · intro hemp
      rw [List.drop_eq_nil_iff] at hemp
      omega


/-! ### Claim theorems -/

/-- C1, counterexample to the claim as stated: the spec's test vector says
`".gitignore"` maps to bucket `"gitignore"`, but `ext_folder_name` sends it
to `"no_extension"` (pathlib gives a leading-dot-only filename no suffix). -/
theorem C1_counterexample :
    ext_folder_name ".gitignore" = "no_extension" ∧
    ext_folder_name ".gitignore" ≠ "gitignore" := by
  decide

/-- C1 (amended): the Extension Classifier is total and pure; when the
name's last `'.'` is internal (neither first nor last character) the bucket
is the lower-cased text after that dot, otherwise the sentinel
`"no_extension"`; in particular `"Photo.JPG" ↦ "jpg"`,
`"archive.tar.gz" ↦ "gz"`, `"README" ↦ "no_extension"` and
`".gitignore" ↦ "no_extension"`. -/
theorem C1_extension_classifier (name : String) (pre post : List Char) :
    (name.data = pre ++ '.' :: post → '.' ∉ post → pre ≠ [] → post ≠ [] →
      ext_folder_name name = pyLower ⟨post⟩) ∧
    ((¬ ∃ pre2 post2, name.data = pre2 ++ '.' :: post2 ∧ '.' ∉ post2 ∧
        pre2 ≠ [] ∧ post2 ≠ []) → ext_folder_name name = "no_extension") ∧
    ext_folder_name "Photo.JPG" = "jpg" ∧
    ext_folder_name "archive.tar.gz" = "gz" ∧
    ext_folder_name "README" = "no_extension" ∧
    ext_folder_name ".gitignore" = "no_extension" := by
  refine ⟨?_, ext_folder_name_sentinel name, by decide, by decide, by decide, by decide⟩
  intro hdec hnd hpre hpost
  cases name with
  | mk d =>
    simp only at hdec
    subst hdec
    exact ext_folder_name_decomp pre post hnd hpre hpost

/-- Witness for C1 at concrete inputs. -/
theorem C1_witness :
    ext_folder_name "Photo.JPG" = pyLower ⟨['J', 'P', 'G']⟩ ∧
    ext_folder_name "README" = "no_extension" := by
  constructor
  · exact (C1_extension_classifier "Photo.JPG" ['P', 'h', 'o', 't', 'o']
      ['J', 'P', 'G']).1 (by decide) (by decide) (by decide) (by decide)
  · refine (C1_extension_classifier "README" [] []).2.1 ?_
    rintro ⟨pre2, post2, hdec, -, -, -⟩
    have hdot : '.' ∈ "README".data := by
      rw [hdec]
      simp
    exact absurd hdot (by decide)

/-- C2: if every attempt fails and none is skippable (not classified locked,
or the skip flag is unset), the engine performs exactly `R + 1` attempts
(1 initial + `R` retries) and returns the Failed outcome
`(False, "error")`, for every retry count `R ≥ 0`. -/
theorem C2_retry_exhaustion (copyAt : Nat → Option PyExc) (R : Nat)
    (delay : ℚ) (sk : Bool)
    (H : ∀ n, ∃ e, copyAt n = some e ∧
      (_is_locked_error e = false ∨ sk = false)) :
    (copy_with_retries copyAt (R : ℤ) delay sk).result = (false, some "error") ∧
    (copy_with_retries copyAt (R : ℤ) delay sk).attempts = R + 1 := by
  have h := cwrLoop_all_fail copyAt (R : ℤ) sk H 0 (max 0 delay)
    (by exact_mod_cast Nat.zero_le R)
  rw [copy_with_retries, h]
  refine ⟨rfl, ?_⟩
  simp

/-- Witness for C2: `retries = 2` and an always-failing non-locked copy
give exactly 3 attempts and Failed. -/
theorem C2_witness :
    (copy_with_retries (fun _ => some ⟨false, "disk full"⟩) 2 1 true).result
      = (false, some "error") ∧
    (copy_with_retries (fun _ => some ⟨false, "disk full"⟩) 2 1 true).attempts
      = 3 :=
  C2_retry_exhaustion (fun _ => some ⟨false, "disk full"⟩) 2 1 true
    (fun _ => ⟨⟨false, "disk full"⟩, rfl, Or.inl (by decide)⟩)

/-- C3: with the skip-locked flag set, a first attempt raising a failure
classified as locked makes the engine return the SkippedLocked outcome
`(False, "locked")` after exactly 1 attempt, with no backoff wait, for
every retry count and every initial delay. -/
theorem C3_skip_locked (copyAt : Nat → Option PyExc) (R : ℤ) (delay : ℚ)
    (e : PyExc) (h0 : copyAt 0 = some e)
    (hlock : _is_locked_error e = true) :
    copy_with_retries copyAt R delay true =
      ⟨(false, some "locked"), 1, []⟩ := by
  rw [copy_with_retries, cwrLoop, h0]
  simp [hlock]

/-- Witness for C3 on a concrete Windows sharing-violation exception. -/
theorem C3_witness :
    copy_with_retries
      (fun _ => some ⟨true, "[WinError 32] The process cannot access the file"⟩)
      5 (1/2) true = ⟨(false, some "locked"), 1, []⟩ :=
  C3_skip_locked _ 5 (1/2)
    ⟨true, "[WinError 32] The process cannot access the file"⟩ rfl (by decide)

/-- C4: with `retries = 2` and initial delay `1`, two non-locked failures
followed by a success give exactly 3 attempts, waits `1` then `2` between
consecutive attempts, and the Success outcome `(True, None)`. -/
theorem C4_backoff_schedule (copyAt : Nat → Option PyExc) (sk : Bool)
    (e0 e1 : PyExc) (h0 : copyAt 0 = some e0) (h1 : copyAt 1 = some e1)
    (h2 : copyAt 2 = none) (hl0 : _is_locked_error e0 = false)
    (hl1 : _is_locked_error e1 = false) :
    copy_with_retries copyAt 2 1 sk = ⟨(true, none), 3, [1, 2]⟩ := by
  have s2 : cwrLoop copyAt 2 sk 2 4 = ⟨(true, none), 3, []⟩ := by
    rw [cwrLoop, h2]
  have s1 : cwrLoop copyAt 2 sk 1 2 = ⟨(true, none), 3, [2]⟩ := by
    rw [cwrLoop, h1]
    simp only [hl1, Bool.false_and, Bool.false_eq_true, if_false]
    rw [dif_neg (by norm_num), show (2 : ℚ) * 2 = 4 from by norm_num, s2]
  have s0 : cwrLoop copyAt 2 sk 0 1 = ⟨(true, none), 3, [1, 2]⟩ := by
    rw [cwrLoop, h0]
    simp only [hl0, Bool.false_and, Bool.false_eq_true, if_false]
    rw [dif_neg (by norm_num), show (1 : ℚ) * 2 = 2 from by norm_num, s1]
  rw [copy_with_retries, show (max 0 1 : ℚ) = 1 from by norm_num, s0]

/-- Witness for C4 on a concrete fail-fail-succeed copy primitive. -/
theorem C4_witness :
    copy_with_retries
      (fun n => if n < 2 then some ⟨false, "busy"⟩ else none) 2 1 false =
      ⟨(true, none), 3, [1, 2]⟩ :=
  C4_backoff_schedule (fun n => if n < 2 then some ⟨false, "busy"⟩ else none)
    false ⟨false, "busy"⟩ ⟨false, "busy"⟩ rfl rfl rfl (by decide) (by decide)

/-- C5: the Destination Namer always terminates with a name that does not
exist in the destination directory: the desired filename itself when it is
absent, and otherwise `"{stem} ({i}){suffix}"` for the smallest index
`i ≥ 1` whose name is absent (every smaller index being taken). -/
theorem C5_unique_target_path (existing : List String) (filename : String) :
    ∃ r, _unique_target_path existing filename = some r ∧ r ∉ existing ∧
      ((filename ∉ existing ∧ r = filename) ∨
       (filename ∈ existing ∧ ∃ i, 1 ≤ i ∧
         r = probeName (pyStem filename) (pySuffix filename) i ∧
         ∀ j, 1 ≤ j → j < i →
           probeName (pyStem filename) (pySuffix filename) j ∈ existing)) := by
  by_cases hmem : filename ∈ existing
  · obtain ⟨k0, hk0, hfresh⟩ :=
      exists_fresh_probe existing (pyStem filename) (pySuffix filename) 1
    have hex : ∃ k, k < existing.length + 1 ∧
        probeName (pyStem filename) (pySuffix filename) (1 + k) ∉ existing :=
      ⟨k0, by omega, hfresh⟩
    obtain ⟨k, hk, hl1, hl2, hl3⟩ :=
      uniqueLoop_spec existing (pyStem filename) (pySuffix filename)
        (existing.length + 1) 1 hex
    refine ⟨probeName (pyStem filename) (pySuffix filename) (1 + k), ?_, hl2,
      Or.inr ⟨hmem, 1 + k, by omega, rfl, ?_⟩⟩
    · rw [_unique_target_path, if_pos hmem]
      exact hl1
    · intro j hj1 hj2
      exact hl3 j hj1 hj2
  · refine ⟨filename, ?_, hmem, Or.inl ⟨hmem, rfl⟩⟩
    rw [_unique_target_path, if_neg hmem]

/-- Witness for C5: a collision in a concrete directory state resolves to
a fresh name. -/
theorem C5_witness :
    ∃ r, _unique_target_path ["a.txt", "a (1).txt"] "a.txt" = some r ∧
      r ∉ ["a.txt", "a (1).txt"] := by
  obtain ⟨r, h1, h2, -⟩ :=
    C5_unique_target_path ["a.txt", "a (1).txt"] "a.txt"
  exact ⟨r, h1, h2⟩

/-- C6: a discovered regular file is excluded exactly when its normalized
relative path matches some pattern of the ordered glob list; the empty
pattern list excludes nothing; and a run's outcomes are drawn only from
the non-excluded files, so an excluded file produces no CopyOutcome. -/
theorem C6_exclusion_filter (pathMatch : String → String → Bool)
    (entries : List FsEntry) (excludes : List String) (p : FsEntry) :
    (p ∈ entries → p.isFile = true →
      (p ∉ iter_files_recursive pathMatch entries excludes ↔
        excludes.any
          (fun pat => pathMatch (pyReplaceBackslash p.rel) pat) = true)) ∧
    (iter_files_recursive pathMatch entries [] =
      entries.filter (fun q => q.isFile)) ∧
    (∀ (srcRoot : String) (envOf : FsEntry → FileEnv) (retries : ℤ)
        (delay : ℚ) (sk : Bool) (rr : RunResult),
      read_folder pathMatch srcRoot true true entries envOf retries delay sk
          excludes = Except.ok rr →
      rr.results = (iter_files_recursive pathMatch entries excludes).map
        (fun q => copy_file (envOf q) retries delay sk)) := by
  refine ⟨?_, ?_, ?_⟩
  · intro hp hfile
    rw [iter_files_recursive]
    rw [List.mem_filter]
    simp [hp, hfile]
  · rw [iter_files_recursive]
    apply List.filter_congr
    intro q _
    simp
  · intro srcRoot envOf retries delay sk rr h
    rw [read_folder] at h
    simp only [Bool.not_true, Bool.or_self, Bool.false_eq_true, if_false] at h
    injection h with h
    rw [← h]

/-- Witness for C6 at a concrete tree: `skip/d.log` is excluded by
`"skip/*"` while `a.txt` is kept, and the run's outcomes are exactly the
per-file results of the non-excluded files. -/
theorem C6_witness :
    ((⟨"skip/d.log", true⟩ : FsEntry) ∈
        ([⟨"a.txt", true⟩, ⟨"skip/d.log", true⟩] : List FsEntry) →
      (⟨"skip/d.log", true⟩ : FsEntry).isFile = true →
      ((⟨"skip/d.log", true⟩ : FsEntry) ∉
          iter_files_recursive (fun r pat => r == "skip/d.log" && pat == "skip/*")
            [⟨"a.txt", true⟩, ⟨"skip/d.log", true⟩] ["skip/*"] ↔
        (["skip/*"].any (fun pat =>
          (fun r pat => r == "skip/d.log" && pat == "skip/*")
            (pyReplaceBackslash (⟨"skip/d.log", true⟩ : FsEntry).rel) pat)) = true)) ∧
    iter_files_recursive (fun r pat => r == "skip/d.log" && pat == "skip/*")
      [⟨"a.txt", true⟩, ⟨"skip/d.log", true⟩] [] =
      ([⟨"a.txt", true⟩, ⟨"skip/d.log", true⟩] : List FsEntry).filter
        (fun q => q.isFile) :=
  ⟨(C6_exclusion_filter (fun r pat => r == "skip/d.log" && pat == "skip/*")
      [⟨"a.txt", true⟩, ⟨"skip/d.log", true⟩] ["skip/*"] ⟨"skip/d.log", true⟩).1,
   (C6_exclusion_filter (fun r pat => r == "skip/d.log" && pat == "skip/*")
      [⟨"a.txt", true⟩, ⟨"skip/d.log", true⟩] [] ⟨"skip/d.log", true⟩).2.1⟩

/-- The result of one `copy_file` task is always one of the three
documented outcomes. -/
theorem copy_file_result_cases (env : FileEnv) (retries : ℤ) (delay : ℚ)
    (sk : Bool) :
    copy_file env retries delay sk = (true, none) ∨
    copy_file env retries delay sk = (false, some "locked") ∨
    copy_file env retries delay sk = (false, some "error") := by
  rw [copy_file]
  cases env.mkdirExc with
  | some e => right; right; rfl
  | none =>
    cases env.nameExc with
    | some e => right; right; rfl
    | none =>
      rw [copy_with_retries]
      exact cwrLoop_result_cases env.copyAt retries sk 0 (max 0 delay)

/-- C7: a run over a valid source root always completes with exactly one
outcome per non-excluded discovered file; the three aggregated counts
partition those outcomes; and a file whose mkdir or naming step raises is
recorded as that file's Failed outcome instead of aborting the run. -/
theorem C7_one_outcome_per_file (pathMatch : String → String → Bool)
    (srcRoot : String) (entries : List FsEntry) (envOf : FsEntry → FileEnv)
    (retries : ℤ) (delay : ℚ) (sk : Bool) (excludes : List String) :
    (∃ rr, read_folder pathMatch srcRoot true true entries envOf retries
        delay sk excludes = Except.ok rr) ∧
    (∀ rr, read_folder pathMatch srcRoot true true entries envOf retries
        delay sk excludes = Except.ok rr →
      rr.results.length =
        (iter_files_recursive pathMatch entries excludes).length ∧
      rr.ok + rr.locked + rr.failed = rr.results.length ∧
      (∀ p, ((envOf p).mkdirExc ≠ none ∨ (envOf p).nameExc ≠ none) →
        copy_file (envOf p) retries delay sk = (false, some "error"))) := by
  constructor
  · exact ⟨_, rfl⟩
  · intro rr h
    rw [read_folder] at h
    simp only [Bool.not_true, Bool.or_self, Bool.false_eq_true, if_false] at h
    injection h with h
    subst h
    refine ⟨by simp, ?_, ?_⟩
    · apply counts_partition
      intro r hr
      rw [List.mem_map] at hr
      obtain ⟨q, -, rfl⟩ := hr
      exact copy_file_result_cases (envOf q) retries delay sk
    · intro p hp
      rw [copy_file]
      cases hm : (envOf p).mkdirExc with
      | some e => rfl
      | none =>
        cases hn : (envOf p).nameExc with
        | some e => rfl
        | none =>
          rcases hp with h | h
          · exact absurd hm h
          · exact absurd hn h

/-- Witness for C7 on a concrete two-file run where one file's mkdir step
raises. -/
theorem C7_witness :
    ∃ rr, read_folder (fun _ _ => false) "src" true true
        [⟨"a.txt", true⟩] (fun _ => ⟨some ⟨false, "mkdir failed"⟩, none, fun _ => none⟩)
        3 (1/2) false [] = Except.ok rr ∧
      rr.ok + rr.locked + rr.failed = rr.results.length := by
  obtain ⟨⟨rr, h1⟩, h2⟩ :=
    C7_one_outcome_per_file (fun _ _ => false) "src" [⟨"a.txt", true⟩]
      (fun _ => ⟨some ⟨false, "mkdir failed"⟩, none, fun _ => none⟩)
      3 (1/2) false []
  exact ⟨rr, h1, (h2 rr h1).2.1⟩

/-- C8: when the source root does not exist or is not a directory, the run
aborts with the preflight error before any work: no destination-root
creation, no scheduling, no outcome — `read_folder` never returns a
`RunResult`. -/
theorem C8_preflight (pathMatch : String → String → Bool) (srcRoot : String)
    (entries : List FsEntry) (envOf : FsEntry → FileEnv) (retries : ℤ)
    (delay : ℚ) (sk : Bool) (excludes : List String)
    (srcExists srcIsDir : Bool)
    (h : srcExists = false ∨ srcIsDir = false) :
    read_folder pathMatch srcRoot srcExists srcIsDir entries envOf retries
        delay sk excludes = Except.error (preflightMsg srcRoot) ∧
    ∀ rr, read_folder pathMatch srcRoot srcExists srcIsDir entries envOf
        retries delay sk excludes ≠ Except.ok rr := by
  have hcond : (!srcExists || !srcIsDir) = true := by
    rcases h with h | h <;> simp [h]
  constructor
  · rw [read_folder, if_pos hcond]
  · intro rr hcontra
    rw [read_folder, if_pos hcond] at hcontra
    exact Except.noConfusion hcontra

/-- Witness for C8 on a missing source root. -/
theorem C8_witness :
    read_folder (fun _ _ => false) "missing" false true [⟨"a.txt", true⟩]
        (fun _ => ⟨none, none, fun _ => none⟩) 3 (1/2) false [] =
      Except.error (preflightMsg "missing") :=
  (C8_preflight (fun _ _ => false) "missing" [⟨"a.txt", true⟩]
    (fun _ => ⟨none, none, fun _ => none⟩) 3 (1/2) false [] false true
    (Or.inl rfl)).1

/-- C9: in every state the event loop can reach during a run with
`max_workers = N`, at most `N` tasks are simultaneously in their copy
phase (each copy holds one of the `N` semaphore permits); and a task's
prep (mkdir/naming) step is always enabled without regard to the permit
count, since the permit wraps only the copy phase. -/
theorem C9_concurrency_bound (maxWorkers M : Nat) (s : SchedState)
    (h : SchedReachable maxWorkers M s) :
    countCopying s ≤ maxWorkers ∧
    (∀ i, s.phases.get? i = some TaskPhase.prep →
      SchedStep s ⟨s.permits, s.phases.set i TaskPhase.waitingSem⟩) := by
  constructor
  · have := sched_invariant maxWorkers M s h
    omega
  · intro i hi
    obtain ⟨p, phs⟩ := s
    exact SchedStep.finishPrep p phs i hi

/-- Witness for C9 at the initial state of a run with 2 permits and 5
tasks. -/
theorem C9_witness :
    countCopying (schedInit 2 5) ≤ 2 ∧
    (∀ i, (schedInit 2 5).phases.get? i = some TaskPhase.prep →
      SchedStep (schedInit 2 5)
        ⟨(schedInit 2 5).permits,
          (schedInit 2 5).phases.set i TaskPhase.waitingSem⟩) :=
  C9_concurrency_bound 2 5 (schedInit 2 5) Relation.ReflTransGen.refl

/-- C10: the first backoff wait of any `copy_with_retries` run equals
`max 0 delay`, each later wait is double the previous one, and for every
non-positive initial delay all waits are exactly `0` — the engine never
sleeps a negative duration. -/
theorem C10_backoff_clamp (copyAt : Nat → Option PyExc) (retries : ℤ)
    (delay : ℚ) (sk : Bool) :
    ((copy_with_retries copyAt retries delay sk).waits = [] ∨
      (copy_with_retries copyAt retries delay sk).waits.head? =
        some (max 0 delay)) ∧
    (∀ k, k + 1 < (copy_with_retries copyAt retries delay sk).waits.length →
      (copy_with_retries copyAt retries delay sk).waits.getD (k + 1) 0 =
        2 * (copy_with_retries copyAt retries delay sk).waits.getD k 0) ∧
    (delay ≤ 0 → ∀ q ∈ (copy_with_retries copyAt retries delay sk).waits,
      q = 0) := by
  obtain ⟨n, hn⟩ := cwrLoop_waits copyAt retries sk 0 (max 0 delay)
  rw [copy_with_retries, hn]
  refine ⟨?_, ?_, ?_⟩
  · cases n with
    | zero => left; rfl
    | succ n => right; rfl
  · intro k hk
    rw [geomList_length] at hk
    exact geomList_getD n (max 0 delay) k hk
  · intro hneg q hq
    have hmax : max 0 delay = 0 := by
      rw [max_eq_left hneg]
    rw [hmax] at hq
    exact geomList_zero_mem n q hq

/-- Witness for C10: retries on a negative initial delay sleep exactly 0. -/
theorem C10_witness :
    ((copy_with_retries (fun _ => some ⟨false, "io error"⟩) 1 (-1) false).waits
        = [] ∨
      (copy_with_retries (fun _ => some ⟨false, "io error"⟩) 1 (-1)
          false).waits.head? = some (max 0 (-1))) ∧
    (∀ q ∈ (copy_with_retries (fun _ => some ⟨false, "io error"⟩) 1 (-1)
        false).waits, q = 0) :=
  ⟨(C10_backoff_clamp (fun _ => some ⟨false, "io error"⟩) 1 (-1) false).1,
   (C10_backoff_clamp (fun _ => some ⟨false, "io error"⟩) 1 (-1) false).2.2
     (by norm_num)⟩
